import Mathlib

/-!
# Verification of the vercel-action deployment-argument protocol

A shallow embedding of the core of the `vercel-action` repository:

* the quote-aware argument tokenizer (`parseArgs` in `src/index.ts` and
  `src/src/vercel.ts`, via the JavaScript regular expression
  scan with pattern alternatives: single-quoted run, double-quoted run,
  maximal non-whitespace run);
* the metadata merger (`addVercelMetadata` / `Vercel.addMetadata`);
* the deployment argument-vector builder (`vercelDeploy` / `Vercel.deploy`);
* output capture: deployment URL from stdout, inspect URL from stderr
  (`Vercel.deploy` listeners), project-name extraction from the
  `inspect` subcommand stderr (`vercelInspect` / `Vercel.inspect`);
* the comment-reporting flow and its error handling
  (`findCommentsForEvent`, `createCommentOnCommit`, the fork gate in the
  orchestrator `run` functions).

JavaScript strings are modelled as `List Char` / `String`; the JS
semantics of the concrete regular expressions used by the source is
modelled explicitly (JS `\s` whitespace class, the fact that `.` does not
match line terminators, leftmost-match with greedy backtracking for the
`inspect` name row).
-/

/-- The single-quote character `'`. -/
def squote : Char := Char.ofNat 39

/-- The double-quote character `"`. -/
def dquote : Char := Char.ofNat 34

/-- JavaScript `\s` whitespace class (as used by the tokenizer regex of
`parseArgs`): tab, LF, VT, FF, CR, space, NBSP, Ogham space mark, the
U+2000..U+200A range, LS, PS, NNBSP, MMSP, ideographic space, BOM. -/
def wsChar (c : Char) : Bool :=
  c = ' ' || c = Char.ofNat 9 || c = Char.ofNat 10 || c = Char.ofNat 11 ||
  c = Char.ofNat 12 || c = Char.ofNat 13 || c = Char.ofNat 0xa0 ||
  c = Char.ofNat 0x1680 || (0x2000 ≤ c.toNat && c.toNat ≤ 0x200a) ||
  c = Char.ofNat 0x2028 || c = Char.ofNat 0x2029 || c = Char.ofNat 0x202f ||
  c = Char.ofNat 0x205f || c = Char.ofNat 0x3000 || c = Char.ofNat 0xfeff

/-- JavaScript line terminators: LF, CR, LS, PS.  These are the characters
that JS regex `.` does not match and that multiline `^`/`$` anchor around. -/
def ltChar (c : Char) : Bool :=
  c = Char.ofNat 10 || c = Char.ofNat 13 || c = Char.ofNat 0x2028 ||
  c = Char.ofNat 0x2029

/-- Split `cs` at the first occurrence of the quote `q`: returns the
characters before it and the characters after it, or `none` when `q` does
not occur.  This models how the regex alternative `'([^']*)'` (resp. the
double-quote one) consumes up to the first closing quote of the same kind. -/
def splitQuoted (q : Char) : List Char → Option (List Char × List Char)
  | [] => none
  | c :: rest =>
    if c = q then some ([], rest)
    else match splitQuoted q rest with
      | some (a, b) => some (c :: a, b)
      | none => none

theorem splitQuoted_eq_some {q : Char} : ∀ {cs a b : List Char},
    splitQuoted q cs = some (a, b) → cs = a ++ q :: b ∧ q ∉ a := by
  intro cs
  induction cs with
  | nil => intro a b h; simp [splitQuoted] at h
  | cons c rest ih =>
    intro a b h
    by_cases hc : c = q
    · simp [splitQuoted, hc] at h
      obtain ⟨ha, hb⟩ := h
      subst ha; subst hb; subst hc
      simp
    · simp only [splitQuoted, if_neg hc] at h
      cases hsp : splitQuoted q rest with
      | none => rw [hsp] at h; simp at h
      | some p =>
        rw [hsp] at h
        obtain ⟨a', b'⟩ := p
        simp at h
        obtain ⟨ha, hb⟩ := h
        subst hb
        obtain ⟨h1, h2⟩ := ih hsp
        subst ha
        refine ⟨by simp [h1], ?_⟩
        intro hmem
        rcases List.mem_cons.mp hmem with h3 | h3
        · exact hc h3.symm
        · exact h2 h3

theorem splitQuoted_eq_none {q : Char} : ∀ {cs : List Char},
    splitQuoted q cs = none → q ∉ cs := by
  intro cs
  induction cs with
  | nil => intro _ h; simp at h
  | cons c rest ih =>
    intro h hmem
    by_cases hc : c = q
    · simp [splitQuoted, hc] at h
    · simp only [splitQuoted, if_neg hc] at h
      cases hsp : splitQuoted q rest with
      | none =>
        rcases List.mem_cons.mp hmem with h1 | h1
        · exact hc h1.symm
        · exact ih hsp h1
      | some p => rw [hsp] at h; obtain ⟨a, b⟩ := p; simp at h

theorem splitQuoted_some_length {q : Char} {cs a b : List Char}
    (h : splitQuoted q cs = some (a, b)) : b.length < cs.length := by
  obtain ⟨h1, _⟩ := splitQuoted_eq_some h
  subst h1
  simp only [List.length_append, List.length_cons]
  omega

/-- One step of the tokenizer's scan, on the character list of the input.

This models the JavaScript loop
`for (const match of s.matchAll(/'([^']*)'|"([^"]*)"|[^\s]+/gm))`
with `args.push(match[1] ?? match[2] ?? match[0])`:
the regex engine finds the leftmost match (skipping characters, in
particular whitespace, where no alternative matches); at a position
holding a quote, the quoted alternative is preferred when a closing quote
of the same kind exists ahead, otherwise the maximal non-whitespace run
alternative applies; quoted runs push the capture group (quotes
stripped), bare runs push the whole match. -/
def scanArgsFuel : Nat → List Char → List String
  | 0, _ => []
  | _ + 1, [] => []
  | fuel + 1, c :: rest =>
    if wsChar c then scanArgsFuel fuel rest
    else if c = squote then
      match splitQuoted squote rest with
      | some (inner, rest2) => String.mk inner :: scanArgsFuel fuel rest2
      | none =>
        String.mk (c :: rest.takeWhile (fun d => !wsChar d)) ::
          scanArgsFuel fuel (rest.dropWhile (fun d => !wsChar d))
    else if c = dquote then
      match splitQuoted dquote rest with
      | some (inner, rest2) => String.mk inner :: scanArgsFuel fuel rest2
      | none =>
        String.mk (c :: rest.takeWhile (fun d => !wsChar d)) ::
          scanArgsFuel fuel (rest.dropWhile (fun d => !wsChar d))
    else
      String.mk (c :: rest.takeWhile (fun d => !wsChar d)) ::
        scanArgsFuel fuel (rest.dropWhile (fun d => !wsChar d))

/-- The scan of the whole input: one token is produced per regex match,
and every match consumes at least one character, so the input length
bounds the number of steps. -/
def scanArgs (cs : List Char) : List String :=
  scanArgsFuel cs.length cs

theorem scanArgsFuel_nil : ∀ fuel : Nat, scanArgsFuel fuel [] = [] := by
  intro fuel
  cases fuel <;> rfl

theorem scanArgsFuel_congr : ∀ f1 : Nat, ∀ {f2 : Nat} {cs : List Char},
    cs.length ≤ f1 → cs.length ≤ f2 → scanArgsFuel f1 cs = scanArgsFuel f2 cs := by
  intro f1
  induction f1 with
  | zero =>
    intro f2 cs h1 _
    have : cs = [] := List.length_eq_zero.mp (Nat.le_zero.mp h1)
    subst this
    rw [scanArgsFuel_nil, scanArgsFuel_nil]
  | succ f1 ih =>
    intro f2 cs h1 h2
    cases cs with
    | nil => rw [scanArgsFuel_nil, scanArgsFuel_nil]
    | cons c rest =>
      have hr1 : rest.length ≤ f1 := by simp at h1; omega
      obtain ⟨f2p, rfl⟩ : ∃ k, f2 = k + 1 := by
        cases f2 with
        | zero => simp at h2
        | succ k => exact ⟨k, rfl⟩
      have hr2 : rest.length ≤ f2p := by simp at h2; omega
      have hdrop : (rest.dropWhile (fun d => !wsChar d)).length ≤ rest.length :=
        (@List.dropWhile_sublist _ rest (fun d => !wsChar d)).length_le
      simp only [scanArgsFuel]
      by_cases hws : wsChar c
      · simp only [if_pos hws]
        exact ih hr1 hr2
      · simp only [if_neg hws]
        by_cases hc : c = squote
        · simp only [if_pos hc]
          cases hsp : splitQuoted squote rest with
          | some p =>
            obtain ⟨inner, rest2⟩ := p
            have := splitQuoted_some_length hsp
            exact congrArg (fun l => String.mk inner :: l)
              (ih (show rest2.length ≤ f1 by omega)
                (show rest2.length ≤ f2p by omega))
          | none =>
            simp only [ih (Nat.le_trans hdrop hr1) (Nat.le_trans hdrop hr2)]
        · simp only [if_neg hc]
          by_cases hc2 : c = dquote
          · simp only [if_pos hc2]
            cases hsp : splitQuoted dquote rest with
            | some p =>
              obtain ⟨inner, rest2⟩ := p
              have := splitQuoted_some_length hsp
              exact congrArg (fun l => String.mk inner :: l)
                (ih (show rest2.length ≤ f1 by omega)
                  (show rest2.length ≤ f2p by omega))
            | none =>
              simp only [ih (Nat.le_trans hdrop hr1) (Nat.le_trans hdrop hr2)]
          · simp only [if_neg hc2]
            simp only [ih (Nat.le_trans hdrop hr1) (Nat.le_trans hdrop hr2)]

/-- `parseArgs` from `src/index.ts` (identical in `src/src/vercel.ts` as
`Vercel.parseArgs` and in `src/src/index.ts`): tokenize the free-form
`vercel-args` input string. -/
def parseArgs (s : String) : List String :=
  scanArgs s.toList

/-- Helper string containing a single quote, used to build concrete inputs. -/
def sqS : String := String.mk [squote]

/-- `true` when `p` (as a character list) is a prefix of `s`. -/
def strHasPre (p s : String) : Bool :=
  p.toList.isPrefixOf s.toList

/-- Remove the first occurrence of `pat` from `s`, or return `s` unchanged
when `pat` does not occur.  This models the JavaScript
`String.prototype.replace(pat, "")` with a plain string pattern, which
replaces only the first occurrence, anywhere in the string. -/
def replaceFirstAux (pat : List Char) : List Char → List Char
  | [] => []
  | c :: rest =>
    if pat.isPrefixOf (c :: rest) then (c :: rest).drop pat.length
    else c :: replaceFirstAux pat rest

/-- JavaScript `s.replace(pat, "")` for a string pattern `pat`. -/
def replaceFirst (s pat : String) : String :=
  String.mk (replaceFirstAux pat.toList s.toList)

/-- Strip `pat` from the front of `s` when it is a prefix, else return `s`
unchanged.  This is the behaviour the specification describes for the ref
("any leading branch-ref prefix stripped"). -/
def stripLeading (s pat : String) : String :=
  if pat.toList.isPrefixOf s.toList then String.mk (s.toList.drop pat.toList.length)
  else s

/-- The test performed by `addVercelMetadata` for one provided token:
`arg.match(new RegExp("^" + key + "=.+", "g"))` is non-null.

For the keys the action uses (all alphanumeric, hence without regex
metacharacters) the regex `^key=.+` matches `arg` exactly when `arg`
starts with `key=` and the character right after `key=` exists and is not
a line terminator (JS `.` matches any character except line
terminators; `^` is anchored at the string start since the `m` flag is
absent). -/
def metadataKeyMatched (key arg : String) : Bool :=
  (key.toList ++ [Char.ofNat 61]).isPrefixOf arg.toList &&
    (match arg.toList.drop (key.toList.length + 1) with
     | [] => false
     | c :: _ => !ltChar c)

/-- `addVercelMetadata` from `src/index.ts` (identical as
`Vercel.addMetadata` in `src/src/vercel.ts` and in `src/src/index.ts`):
scan the provided tokens; if one matches `^key=.+`, return the empty
list, otherwise return the computed two-token metadata flag.  Numeric
values (the constant `1` of `githubDeployment`) are modelled as their
decimal string. -/
def addVercelMetadata (key value : String) (providedArgs : List String) : List String :=
  if providedArgs.any (fun arg => metadataKeyMatched key arg) then []
  else ["-m", key ++ "=" ++ value]

/-- The inputs `vercelDeploy` reads (action inputs and GitHub context). -/
structure DeployInputs where
  vercelArgs : String
  vercelToken : String
  sha : String
  actor : String
  owner : String
  repo : String
  commitMessage : String
  ref : String
  scope : String

/-- The tokenized user-supplied arguments (`providedArgs` in `vercelDeploy`). -/
def providedOf (i : DeployInputs) : List String :=
  parseArgs i.vercelArgs

/-- The argument vector built by `vercelDeploy` in `src/index.ts`
(lines 98–124; identical in `src/src/index.ts` and `Vercel.deploy` in
`src/src/vercel.ts`): the provided tokens, the auth pair, the ten merged
metadata segments in source order, and the scope pair when the `scope`
input is non-empty (JS truthiness of a string). -/
def vercelDeployArgs (i : DeployInputs) : List String :=
  let provided := providedOf i
  provided ++ ["-t", i.vercelToken] ++
    addVercelMetadata "githubCommitSha" i.sha provided ++
    addVercelMetadata "githubCommitAuthorName" i.actor provided ++
    addVercelMetadata "githubCommitAuthorLogin" i.actor provided ++
    addVercelMetadata "githubDeployment" "1" provided ++
    addVercelMetadata "githubOrg" i.owner provided ++
    addVercelMetadata "githubRepo" i.repo provided ++
    addVercelMetadata "githubCommitOrg" i.owner provided ++
    addVercelMetadata "githubCommitRepo" i.repo provided ++
    addVercelMetadata "githubCommitMessage" ("\"" ++ i.commitMessage ++ "\"") provided ++
    addVercelMetadata "githubCommitRef" (replaceFirst i.ref "refs/heads/") provided ++
    (if i.scope ≠ "" then ["--scope", i.scope] else [])

/-- The well-known metadata keys with the values the deploy step computes
for them, in the fixed source order. -/
def wellKnownMetadata (i : DeployInputs) : List (String × String) :=
  [("githubCommitSha", i.sha),
   ("githubCommitAuthorName", i.actor),
   ("githubCommitAuthorLogin", i.actor),
   ("githubDeployment", "1"),
   ("githubOrg", i.owner),
   ("githubRepo", i.repo),
   ("githubCommitOrg", i.owner),
   ("githubCommitRepo", i.repo),
   ("githubCommitMessage", "\"" ++ i.commitMessage ++ "\""),
   ("githubCommitRef", replaceFirst i.ref "refs/heads/")]

/-- The argument vector as §4.3 of the specification words it, with the
metadata entries produced by one merger invocation per enumerated key:
provided tokens, auth pair, metadata entries in fixed order, optional
scope pair.  The ref value follows the specification's words: "ref with
any leading branch-ref prefix stripped". -/
def specDeployArgs (i : DeployInputs) : List String :=
  let provided := providedOf i
  let pairs := [("githubCommitSha", i.sha),
    ("githubCommitAuthorName", i.actor),
    ("githubCommitAuthorLogin", i.actor),
    ("githubDeployment", "1"),
    ("githubOrg", i.owner),
    ("githubRepo", i.repo),
    ("githubCommitOrg", i.owner),
    ("githubCommitRepo", i.repo),
    ("githubCommitMessage", "\"" ++ i.commitMessage ++ "\""),
    ("githubCommitRef", stripLeading i.ref "refs/heads/")]
  provided ++ ["-t", i.vercelToken] ++
    (pairs.flatMap (fun kv => addVercelMetadata kv.1 kv.2 provided)) ++
    (if i.scope ≠ "" then ["--scope", i.scope] else [])

/-- As `specDeployArgs`, but with the ref wording amended to what the code
does: the first occurrence of `refs/heads/` is removed, wherever it is. -/
def specDeployArgsAmended (i : DeployInputs) : List String :=
  let provided := providedOf i
  let pairs := [("githubCommitSha", i.sha),
    ("githubCommitAuthorName", i.actor),
    ("githubCommitAuthorLogin", i.actor),
    ("githubDeployment", "1"),
    ("githubOrg", i.owner),
    ("githubRepo", i.repo),
    ("githubCommitOrg", i.owner),
    ("githubCommitRepo", i.repo),
    ("githubCommitMessage", "\"" ++ i.commitMessage ++ "\""),
    ("githubCommitRef", replaceFirst i.ref "refs/heads/")]
  provided ++ ["-t", i.vercelToken] ++
    (pairs.flatMap (fun kv => addVercelMetadata kv.1 kv.2 provided)) ++
    (if i.scope ≠ "" then ["--scope", i.scope] else [])

/-- The claim-side reading of "some provided token matches
`K=<one or more characters>` anchored at the token's start": the token is
`K=` followed by a non-empty string. -/
def DefinesKeyLiteral (key arg : String) : Prop :=
  ∃ s : String, arg = key ++ "=" ++ s ∧ s ≠ ""

/-- The amended reading, faithful to the regex `^key=.+`: the token is
`K=` followed by a non-empty string whose first character is not a line
terminator. -/
def DefinesKeyAmended (key arg : String) : Prop :=
  ∃ c : Char, ∃ s : List Char,
    arg.toList = key.toList ++ Char.ofNat 61 :: c :: s ∧ ltChar c = false

/-- The result of `Vercel.deploy` in `src/src/vercel.ts`: concatenated
stdout as the deployment URL, an inspector URL extracted from stderr. -/
structure DeploymentResult where
  deploymentUrl : String
  inspectorUrl : String
deriving DecidableEq, Repr

/-- The stderr marker tested by the `Vercel.deploy` stderr listener. -/
def inspectMarker : String := "Inspect: https://vercel.com"

/-- The stderr listener of `Vercel.deploy` (`src/src/vercel.ts` lines
83–86), folded over the delivered stderr chunks: whenever a chunk starts
with the marker, `inspectorUrl` is assigned that chunk with the first
occurrence of `Inspect: ` removed; the variable starts as the empty
string.  A later matching chunk overwrites an earlier one. -/
def inspectorUrlOf (stderrChunks : List String) : String :=
  stderrChunks.foldl
    (fun acc chunk =>
      if strHasPre inspectMarker chunk then replaceFirst chunk "Inspect: " else acc)
    ""

/-- `Vercel.deploy`'s output capture (`src/src/vercel.ts` lines 76–90):
stdout chunks are concatenated into the deployment URL, stderr chunks are
scanned by the listener for the inspect URL. -/
def deployCapture (stdoutChunks stderrChunks : List String) : DeploymentResult :=
  { deploymentUrl := String.join stdoutChunks
    inspectorUrl := inspectorUrlOf stderrChunks }

/-- The claim-side reading of the inspect-URL rule: the first
standard-error chunk starting with the marker, with the marker's
`Inspect: ` part stripped; the empty string when no chunk matches. -/
def firstInspectUrl (stderrChunks : List String) : String :=
  match stderrChunks.find? (fun chunk => strHasPre inspectMarker chunk) with
  | some chunk => replaceFirst chunk "Inspect: "
  | none => ""

/-- The amended reading: the last matching standard-error chunk, with the
marker's `Inspect: ` part stripped; empty when no chunk matches. -/
def lastInspectUrl (stderrChunks : List String) : String :=
  match stderrChunks.reverse.find? (fun chunk => strHasPre inspectMarker chunk) with
  | some chunk => replaceFirst chunk "Inspect: "
  | none => ""

/-- The characters of the literal `name` searched by the inspect regex. -/
def nameChars : List Char := ['n', 'a', 'm', 'e']

/-- `true` when, after dropping `k` characters of `t`, a character remains
and it is not a line terminator — i.e. the `(.+)` group of the inspect
regex can start there. -/
def goodGroupStart (t : List Char) (k : Nat) : Bool :=
  match t.drop k with
  | [] => false
  | c :: _ => !ltChar c

/-- Greedy backtracking of the `\s+` between `name` and `(.+)`: try the
largest number of consumed whitespace characters first, down to one, and
return the first count from which the `(.+)` group can start. -/
def searchGroupStart (t : List Char) : Nat → Option Nat
  | 0 => none
  | k + 1 =>
    if goodGroupStart t (k + 1) then some (k + 1) else searchGroupStart t k

/-- Match `\s+(.+)$` against `t` (the text following the literal `name`),
with JS semantics: `\s+` greedy over JS whitespace (which includes line
terminators), `(.+)` one or more non-line-terminator characters, `$`
at end of input or before a line terminator (multiline flag).  Returns
the `(.+)` capture group of the match the backtracking engine finds. -/
def matchTail (t : List Char) : Option (List Char) :=
  match searchGroupStart t (t.takeWhile wsChar).length with
  | some k => some ((t.drop k).takeWhile (fun c => !ltChar c))
  | none => none

/-- Attempt the regex `^\s+name\s+(.+)$` at the start of `cs` (assuming
the `^` anchor holds there): a non-empty whitespace run, then the literal
`name`, then `matchTail`.  The leading `\s+` is deterministic because the
following literal starts with a non-whitespace character. -/
def attemptName (cs : List Char) : Option (List Char) :=
  let w := cs.takeWhile wsChar
  let r := cs.dropWhile wsChar
  if w.isEmpty then none
  else if nameChars.isPrefixOf r then matchTail (r.drop nameChars.length)
  else none

/-- The scan of `error.match(/^\s+name\s+(.+)$/m)`: try the match attempt
at every position where multiline `^` holds (the start of the input and
every position following a line terminator), left to right, and return
the capture group of the first successful attempt. -/
def scanName : Bool → List Char → Option (List Char)
  | _, [] => none
  | atStart, c :: rest =>
    match (if atStart then attemptName (c :: rest) else none) with
    | some g => some g
    | none => scanName (ltChar c) rest

/-- The name extraction of `vercelInspect` (`src/index.ts` lines 152–153,
identical in `src/src/index.ts` and `Vercel.inspect`): match the captured
stderr text against `/^\s+name\s+(.+)$/m` and return the capture group,
or `null` when there is no match. -/
def vercelInspectName (stderrText : String) : Option String :=
  (scanName true stderrText.toList).map String.mk

/-- Split a character list into lines at `\n` (for the claim-side,
line-by-line reading of the extraction rule). -/
def splitLinesAux (cur : List Char) : List Char → List (List Char)
  | [] => [cur.reverse]
  | c :: rest =>
    if c = Char.ofNat 10 then cur.reverse :: splitLinesAux [] rest
    else splitLinesAux (c :: cur) rest

/-- The lines of a string, split at `\n`. -/
def splitLines (s : String) : List (List Char) :=
  splitLinesAux [] s.toList

/-- The claim-side reading of the extraction rule: the capture group of
the first individual line that the regex `^\s+name\s+(.+)$` matches. -/
def extractNameByLines (s : String) : Option String :=
  ((splitLines s).findSome? attemptName).map String.mk

/-- Declarative characterization of a multiline match of
`^\s+name\s+(.+)$` in `cs` with capture group `g`: the text decomposes as
`pre ++ w1 ++ name ++ w2 ++ g ++ post` where `pre` ends at a line start,
`w1` and `w2` are non-empty whitespace runs, `g` is a non-empty run of
non-line-terminator characters, and `post` begins with a line terminator
or is empty. -/
def NameMatch (cs g : List Char) : Prop :=
  ∃ pre w1 w2 post : List Char,
    cs = pre ++ w1 ++ nameChars ++ w2 ++ g ++ post ∧
    (pre = [] ∨ ∃ c : Char, pre.getLast? = some c ∧ ltChar c = true) ∧
    w1 ≠ [] ∧ (∀ c ∈ w1, wsChar c = true) ∧
    w2 ≠ [] ∧ (∀ c ∈ w2, wsChar c = true) ∧
    g ≠ [] ∧ (∀ c ∈ g, ltChar c = false) ∧
    (post = [] ∨ ∃ c : Char, ∃ post2 : List Char, post = c :: post2 ∧ ltChar c = true)

/-- A platform comment as the reporting code sees it (`Comment` interface
in `src/index.ts`): an id and an optional body. -/
structure PlatformComment where
  id : Nat
  body : Option String
deriving DecidableEq, Repr

/-- The outcomes of the platform comment API calls made during one run,
provided as the environment of the reporting flow: each call either
succeeds (with a value) or rejects with an error message. -/
structure ReportEnv where
  hasOctokit : Bool
  eventName : String
  issueNumber : Nat
  listCommitComments : Except String (List PlatformComment)
  listIssueComments : Except String (List PlatformComment)
  createCommitComment : Except String Unit
  updateCommitComment : Except String Unit
  createIssueComment : Except String Unit
  updateIssueComment : Except String Unit

/-- `isPullRequestType` from `src/index.ts`: the event name starts with
`pull_request`. -/
def isPullRequestType (event : String) : Bool :=
  strHasPre "pull_request" event

/-- `findCommentsForEvent` from `src/index.ts` (lines 161–191): list the
commit comments (push events) or the issue comments (pull-request
events); a rejection of the listing call is caught and replaced by the
default empty response; unsupported events also yield the default. -/
def findCommentsForEvent (env : ReportEnv) : List PlatformComment :=
  if env.eventName = "push" then
    if env.hasOctokit then
      match env.listCommitComments with
      | .ok cs => cs
      | .error _ => []
    else []
  else if isPullRequestType env.eventName then
    if env.hasOctokit then
      match env.listIssueComments with
      | .ok cs => cs
      | .error _ => []
    else []
  else []

/-- `findPreviousComment` from `src/index.ts` (lines 193–209): `null`
without a platform token; otherwise the id of the first comment whose
body starts with the marker text (comments without a body never match). -/
def findPreviousComment (env : ReportEnv) (text : String) : Option Nat :=
  if env.hasOctokit then
    ((findCommentsForEvent env).find?
      (fun c => match c.body with
        | some b => strHasPre text b
        | none => false)).map (fun c => c.id)
  else none

/-- `buildCommentPrefix` from `src/index.ts`: the stable marker by which
a previous comment of this action is recognized. -/
def commentMarkerText (deploymentName : String) : String :=
  "Deploy preview for _" ++ deploymentName ++ "_ ready!"

/-- `createCommentOnCommit` from `src/index.ts` (lines 238–269): find the
previous comment by the marker, then update it, or create a new commit
comment.  The update/create platform calls are awaited without a catch,
so their rejection propagates to the caller. -/
def createCommentOnCommit (env : ReportEnv) (deploymentName : String) :
    Except String Unit :=
  if env.hasOctokit then
    match findPreviousComment env (commentMarkerText deploymentName) with
    | some _ => env.updateCommitComment
    | none => env.createCommitComment
  else .ok ()

/-- `createCommentOnPullRequest` from `src/index.ts` (lines 271–302). -/
def createCommentOnPullRequest (env : ReportEnv) (deploymentName : String) :
    Except String Unit :=
  if env.hasOctokit then
    match findPreviousComment env (commentMarkerText deploymentName) with
    | some _ => env.updateIssueComment
    | none => env.createIssueComment
  else .ok ()

/-- The comment-reporting step of `run` in `src/index.ts` (lines
366–376): only performed with a platform token and a deployment name;
pull-request/issue events get an issue comment, push events a commit
comment.  An error escaping this step reaches the top-level wrapper,
which marks the whole action run as failed. -/
def reportPhase (env : ReportEnv) (deploymentName : String) : Except String Unit :=
  if env.hasOctokit ∧ deploymentName ≠ "" then
    if env.issueNumber ≠ 0 then createCommentOnPullRequest env deploymentName
    else if env.eventName = "push" then createCommentOnCommit env deploymentName
    else .ok ()
  else .ok ()

/-- `true` when an `Except` result is an error. -/
def isErrResult (e : Except String Unit) : Bool :=
  match e with
  | .ok _ => false
  | .error _ => true

/-- Whether the top-level wrapper of `run` marks the action as failed
because of the comment-reporting step (`core.setFailed` in the IIFE of
`src/index.ts`). -/
def runFailsFromReporting (env : ReportEnv) (deploymentName : String) : Bool :=
  isErrResult (reportPhase env deploymentName)

/-- The `preview-url` output step of `run` (`src/index.ts` lines
350–355, identical in `src/src/index.ts` lines 293–298): the output is
set only when the deployment URL is truthy, i.e. non-empty; otherwise
only a warning is logged and no output is set. -/
def previewUrlOutputs (deploymentUrl : String) : List (String × String) :=
  if deploymentUrl ≠ "" then [("preview-url", deploymentUrl)] else []

/-- The `preview-url` outputs produced for the result captured from the
deployment subprocess. -/
def runPreviewUrlOutputs (stdoutChunks stderrChunks : List String) :
    List (String × String) :=
  previewUrlOutputs (deployCapture stdoutChunks stderrChunks).deploymentUrl

/-- The environment of one orchestrator run (`src/unnamed/part_001` and
`src/unnamed/part_002`): the GitHub context fields the run reads and the
outcome of every external call it may make. -/
structure OrchestratorEnv where
  eventName : String
  repoOwner : String
  baseOwner : String
  actor : String
  sha : String
  repo : String
  runId : Nat
  issueNumber : Nat
  telemetryExit : Except String Unit
  getCommitMessage : Except String String
  pushHeadCommitMessage : Option String
  projectName : String
  deployExit : Except String DeploymentResult
  inspectExit : Except String (Option String)
  listCommitComments : Except String (List PlatformComment)
  listIssueComments : Except String (List PlatformComment)
  createCommitComment : Except String Unit
  updateCommitComment : Except String Unit
  createIssueComment : Except String Unit
  updateIssueComment : Except String Unit

/-- View the orchestrator environment as a reporting environment (the
`Rest` class always constructs a client, its token input is required). -/
def toReportEnv (env : OrchestratorEnv) : ReportEnv :=
  { hasOctokit := true
    eventName := env.eventName
    issueNumber := env.issueNumber
    listCommitComments := env.listCommitComments
    listIssueComments := env.listIssueComments
    createCommitComment := env.createCommitComment
    updateCommitComment := env.updateCommitComment
    createIssueComment := env.createIssueComment
    updateIssueComment := env.updateIssueComment }

/-- What one orchestrator run did: whether the deployment subprocess was
launched, the bodies of the comments successfully posted (created or
updated), and whether the run ended in the failure state (the top-level
wrapper caught an error and called `core.setFailed`). -/
structure RunTrace where
  deployInvoked : Bool
  posted : List String
  failed : Bool
deriving DecidableEq, Repr

/-- The stable marker of the `Rest.createComment` flow
(`src/src/rest.ts`, first variant): `buildCommentPrefix`. -/
def restMarker : String := "<!-- VERCEL DEPLOYMENT COMMENT -->"

/-- `Rest.buildCommentBody` for a context carrying an explicit `body`
(`src/src/rest.ts`, first variant): the marker, a blank line, the body,
joined with newlines. -/
def restBodyComment (body : String) : String :=
  String.intercalate "\n" [restMarker, "", body]

/-- `Rest.createComment` of the first `src/src/rest.ts` variant, for a
context with an explicit body: pull-request/issue events get an issue
comment, push events a commit comment, anything else posts nothing.  The
previous comment is looked up by the stable marker (listing failures are
caught there); the create/update call itself is not caught.  Returns the
bodies successfully posted. -/
def restCreateComment (env : OrchestratorEnv) (body : String) :
    Except String (List String) :=
  let full := restBodyComment body
  if env.issueNumber ≠ 0 then
    match findPreviousComment (toReportEnv env) restMarker with
    | some _ => env.updateIssueComment.map (fun _ => [full])
    | none => env.createIssueComment.map (fun _ => [full])
  else if env.eventName = "push" then
    match findPreviousComment (toReportEnv env) restMarker with
    | some _ => env.updateCommitComment.map (fun _ => [full])
    | none => env.createCommitComment.map (fun _ => [full])
  else .ok []

/-- The explanatory comment body posted for a forked pull request
(`src/unnamed/part_002`). -/
def forkCommentBody (actor : String) : String :=
  String.intercalate "\n"
    ["⚠️ This PR is from a repository outside your account so it will not be deployed.",
     "",
     "If you are a collaborator on this project and you wish to allow **@" ++ actor ++
       "** to deploy this commit, press the checkbox below.",
     "- [ ] Allow deployment"]

/-- The comment title of the second `src/src/rest.ts` variant
(`buildCommentPrefix` there), used by the `src/unnamed/part_001` run. -/
def restTitleB (name : String) : String :=
  "Deployment for _" ++ name ++ "_ is ready!"

/-- The comment body of the second `src/src/rest.ts` variant
(`buildCommentBody` there). -/
def restBodyB (name sha previewUrl inspectorUrl logUrl : String) : String :=
  String.intercalate "\n"
    [restTitleB name, "",
     "This pull request has been deployed to Vercel.", "",
     "<table>", "<tr>",
     "<td><strong>Latest commit:</strong></td>",
     "<td><code>" ++ sha ++ "</code></td>",
     "</tr>", "<tr>",
     "<td><strong>✅ Preview:</strong></td>",
     "<td><a href=" ++ sqS ++ previewUrl ++ sqS ++ ">" ++ previewUrl ++ "</a></td>",
     "</tr>", "<tr>",
     "<td><strong>🔍 Inspect:</strong></td>",
     "<td><a href=" ++ sqS ++ inspectorUrl ++ sqS ++ ">" ++ inspectorUrl ++ "</a></td>",
     "</tr>", "</table>", "",
     "[View Workflow Logs](" ++ logUrl ++ ")"]

/-- The workflow log URL used by the comment bodies. -/
def workflowLogUrl (env : OrchestratorEnv) : String :=
  "https://github.com/" ++ env.repoOwner ++ "/" ++ env.repo ++ "/actions/runs/" ++
    toString env.runId

/-- The comment step of the `src/unnamed/part_001` run: find the previous
comment by the title of the second `Rest` variant, then update or create
(issue comment for pull-request/issue events, commit comment for push). -/
def part001CommentStep (env : OrchestratorEnv) (name : String)
    (res : DeploymentResult) : Except String (List String) :=
  let full := restBodyB name env.sha res.deploymentUrl res.inspectorUrl
    (workflowLogUrl env)
  if env.issueNumber ≠ 0 then
    match findPreviousComment (toReportEnv env) (restTitleB name) with
    | some _ => env.updateIssueComment.map (fun _ => [full])
    | none => env.createIssueComment.map (fun _ => [full])
  else if env.eventName = "push" then
    match findPreviousComment (toReportEnv env) (restTitleB name) with
    | some _ => env.updateCommitComment.map (fun _ => [full])
    | none => env.createCommitComment.map (fun _ => [full])
  else .ok []

/-- The `run` of `src/unnamed/part_001`: reject forked pull requests
(log and return, successfully, without any subprocess), otherwise set the
environment, disable telemetry, resolve the commit message, deploy,
resolve the deployment name (configured project name or `inspect`), and
post/update the comment.  Any rejected awaited call escapes to the
top-level wrapper, which turns it into the failure state. -/
def runPart001 (env : OrchestratorEnv) : RunTrace :=
  if isPullRequestType env.eventName ∧ env.repoOwner ≠ env.baseOwner then
    { deployInvoked := false, posted := [], failed := false }
  else
    match env.telemetryExit with
    | .error _ => { deployInvoked := false, posted := [], failed := true }
    | .ok _ =>
      match (if env.eventName = "push" then
               Except.ok (env.pushHeadCommitMessage.getD "")
             else if isPullRequestType env.eventName then env.getCommitMessage
             else Except.ok "") with
      | .error _ => { deployInvoked := false, posted := [], failed := true }
      | .ok _ =>
        match env.deployExit with
        | .error _ => { deployInvoked := true, posted := [], failed := true }
        | .ok res =>
          match (if env.projectName ≠ "" then Except.ok (some env.projectName)
                 else env.inspectExit) with
          | .error _ => { deployInvoked := true, posted := [], failed := true }
          | .ok nameOpt =>
            match nameOpt with
            | none => { deployInvoked := true, posted := [], failed := false }
            | some nm =>
              match part001CommentStep env nm res with
              | .error _ => { deployInvoked := true, posted := [], failed := true }
              | .ok ps => { deployInvoked := true, posted := ps, failed := false }

/-- The `run` of `src/unnamed/part_002` (its live, uncommented code): for
a forked pull request, post the explanatory opt-in comment and return;
the remaining deployment pipeline of that variant is commented out, so on
the other path the run also only posts the comment and returns.  No
deployment subprocess exists in this variant. -/
def runPart002 (env : OrchestratorEnv) : RunTrace :=
  if isPullRequestType env.eventName ∧ env.repoOwner ≠ env.baseOwner then
    match restCreateComment env (forkCommentBody env.actor) with
    | .error _ => { deployInvoked := false, posted := [], failed := true }
    | .ok ps => { deployInvoked := false, posted := ps, failed := false }
  else
    match restCreateComment env (forkCommentBody env.actor) with
    | .error _ => { deployInvoked := false, posted := [], failed := true }
    | .ok ps => { deployInvoked := false, posted := ps, failed := false }

theorem dropWhile_head_false {α : Type} {p : α → Bool} :
    ∀ {l : List α} {c : α} {t : List α}, l.dropWhile p = c :: t → p c = false := by
  intro l
  induction l with
  | nil => intro c t h; simp [List.dropWhile] at h
  | cons a l ih =>
    intro c t h
    by_cases ha : p a
    · rw [List.dropWhile_cons_of_pos ha] at h
      exact ih h
    · rw [List.dropWhile_cons_of_neg ha] at h
      obtain ⟨h1, _⟩ := List.cons.inj h
      subst h1
      exact Bool.of_not_eq_true ha

/-- §4.1 of the specification, as a scan relation: scanning a character
list left to right yields a token list.  Whitespace between tokens is
passed over; a run enclosed in single quotes is one token with the quotes
stripped (interior characters, in particular double quotes, preserved);
a run enclosed in double quotes is one token with the quotes stripped;
any other maximal non-whitespace run is one token, and a quote character
without a matching closing quote ahead is an ordinary character of such a
run. -/
inductive SpecScan : List Char → List String → Prop where
  | nil : SpecScan [] []
  | whitespace {c : Char} {rest : List Char} {ts : List String} :
      wsChar c = true → SpecScan rest ts → SpecScan (c :: rest) ts
  | singleQuoted {inner rest : List Char} {ts : List String} :
      squote ∉ inner → SpecScan rest ts →
      SpecScan (squote :: (inner ++ squote :: rest)) (String.mk inner :: ts)
  | doubleQuoted {inner rest : List Char} {ts : List String} :
      dquote ∉ inner → SpecScan rest ts →
      SpecScan (dquote :: (inner ++ dquote :: rest)) (String.mk inner :: ts)
  | bare {run rest : List Char} {ts : List String} :
      run ≠ [] → (∀ c ∈ run, wsChar c = false) →
      (rest = [] ∨ ∃ c : Char, ∃ rest2 : List Char, rest = c :: rest2 ∧ wsChar c = true) →
      (run.head? = some squote → squote ∉ run.tail ++ rest) →
      (run.head? = some dquote → dquote ∉ run.tail ++ rest) →
      SpecScan rest ts →
      SpecScan (run ++ rest) (String.mk run :: ts)


theorem specScan_bare_step {c : Char} {rest : List Char} {ts : List String}
    (hws : wsChar c = false)
    (hsq : c = squote → squote ∉ rest)
    (hdq : c = dquote → dquote ∉ rest)
    (ih : SpecScan (rest.dropWhile (fun d => !wsChar d)) ts) :
    SpecScan (c :: rest)
      (String.mk (c :: rest.takeWhile (fun d => !wsChar d)) :: ts) := by
  have hsplit : (c :: rest.takeWhile (fun d => !wsChar d)) ++
      rest.dropWhile (fun d => !wsChar d) = c :: rest := by
    simp [List.takeWhile_append_dropWhile]
  have hmemrest : ∀ x : Char, x ∈ (c :: rest.takeWhile (fun d => !wsChar d)).tail ++
      rest.dropWhile (fun d => !wsChar d) → x ∈ rest := by
    intro x hx
    simp only [List.tail_cons] at hx
    rw [List.takeWhile_append_dropWhile] at hx
    exact hx
  rw [← hsplit]
  refine SpecScan.bare (by simp) ?_ ?_ ?_ ?_ ih
  · intro d hd
    rcases List.mem_cons.mp hd with h1 | h1
    · subst h1; exact hws
    · have := List.mem_takeWhile_imp h1
      simpa using this
  · cases hdrop : rest.dropWhile (fun d => !wsChar d) with
    | nil => exact Or.inl rfl
    | cons a t =>
      refine Or.inr ⟨a, t, rfl, ?_⟩
      have := dropWhile_head_false hdrop
      simpa using this
  · intro hhead hmem
    simp only [List.head?_cons, Option.some.injEq] at hhead
    exact hsq hhead (hmemrest _ hmem)
  · intro hhead hmem
    simp only [List.head?_cons, Option.some.injEq] at hhead
    exact hdq hhead (hmemrest _ hmem)

theorem scanArgsFuel_specScan : ∀ fuel : Nat, ∀ cs : List Char,
    cs.length ≤ fuel → SpecScan cs (scanArgsFuel fuel cs) := by
  intro fuel
  induction fuel with
  | zero =>
    intro cs h
    have : cs = [] := List.length_eq_zero.mp (Nat.le_zero.mp h)
    subst this
    exact SpecScan.nil
  | succ fuel ih =>
    intro cs h
    cases cs with
    | nil => exact SpecScan.nil
    | cons c rest =>
      have hr : rest.length ≤ fuel := by simp at h; omega
      have hdroplen : (rest.dropWhile (fun d => !wsChar d)).length ≤ fuel :=
        Nat.le_trans (@List.dropWhile_sublist _ rest (fun d => !wsChar d)).length_le hr
      simp only [scanArgsFuel]
      by_cases hws : wsChar c
      · simp only [if_pos hws]
        exact SpecScan.whitespace hws (ih rest hr)
      · simp only [if_neg hws]
        by_cases hc : c = squote
        · simp only [if_pos hc]
          cases hsp : splitQuoted squote rest with
          | some p =>
            obtain ⟨inner, rest2⟩ := p
            obtain ⟨h1, h2⟩ := splitQuoted_eq_some hsp
            have := splitQuoted_some_length hsp
            subst hc
            rw [h1]
            exact SpecScan.singleQuoted h2 (ih rest2 (by omega))
          | none =>
            subst hc
            refine specScan_bare_step (Bool.of_not_eq_true hws) ?_ ?_
              (ih _ hdroplen)
            · intro _; exact splitQuoted_eq_none hsp
            · intro habs
              exact absurd (congrArg Char.toNat habs) (by simp [squote, dquote])
        · simp only [if_neg hc]
          by_cases hc2 : c = dquote
          · simp only [if_pos hc2]
            cases hsp : splitQuoted dquote rest with
            | some p =>
              obtain ⟨inner, rest2⟩ := p
              obtain ⟨h1, h2⟩ := splitQuoted_eq_some hsp
              have := splitQuoted_some_length hsp
              subst hc2
              rw [h1]
              exact SpecScan.doubleQuoted h2 (ih rest2 (by omega))
            | none =>
              subst hc2
              refine specScan_bare_step (Bool.of_not_eq_true hws) ?_ ?_
                (ih _ hdroplen)
              · intro habs
                exact absurd (congrArg Char.toNat habs)
                  (by simp [squote, dquote])
              · intro _; exact splitQuoted_eq_none hsp
          · simp only [if_neg hc2]
            refine specScan_bare_step (Bool.of_not_eq_true hws) ?_ ?_
              (ih _ hdroplen)
            · intro habs; exact absurd habs hc
            · intro habs; exact absurd habs hc2

/-- The tokenizer implements the specification's scan relation. -/
theorem scanArgs_specScan (cs : List Char) : SpecScan cs (scanArgs cs) :=
  scanArgsFuel_specScan cs.length cs (Nat.le_refl _)

/-- Helper string containing one double quote. -/
def dqS : String := "\""

theorem metadataKeyMatched_iff (key arg : String) :
    metadataKeyMatched key arg = true ↔ DefinesKeyAmended key arg := by
  unfold metadataKeyMatched DefinesKeyAmended
  constructor
  · intro h
    rw [Bool.and_eq_true] at h
    obtain ⟨h1, h2⟩ := h
    have hpre := List.isPrefixOf_iff_prefix.mp h1
    obtain ⟨t, ht⟩ := hpre
    have hdrop : arg.toList.drop (key.toList.length + 1) = t := by
      rw [← ht]
      have : key.toList.length + 1 = (key.toList ++ [Char.ofNat 61]).length := by simp
      rw [this, List.drop_left]
    rw [hdrop] at h2
    cases t with
    | nil => simp at h2
    | cons c s =>
      refine ⟨c, s, ?_, ?_⟩
      · rw [← ht]; simp
      · simp at h2; exact h2
  · intro ⟨c, s, heq, hlt⟩
    rw [Bool.and_eq_true]
    constructor
    · apply List.isPrefixOf_iff_prefix.mpr
      rw [heq]
      exact ⟨c :: s, by simp⟩
    · have hdrop : arg.toList.drop (key.toList.length + 1) = c :: s := by
        rw [heq]
        have : key.toList.length + 1 = (key.toList ++ [Char.ofNat 61]).length := by simp
        rw [this]
        have : key.toList ++ Char.ofNat 61 :: c :: s =
            (key.toList ++ [Char.ofNat 61]) ++ (c :: s) := by simp
        rw [this, List.drop_left]
      rw [hdrop]
      simp [hlt]

theorem merger_suppress (key value : String) (provided : List String)
    (h : ∃ arg ∈ provided, DefinesKeyAmended key arg) :
    addVercelMetadata key value provided = [] := by
  unfold addVercelMetadata
  obtain ⟨arg, hmem, hdef⟩ := h
  rw [if_pos]
  exact List.any_eq_true.mpr ⟨arg, hmem, (metadataKeyMatched_iff key arg).mpr hdef⟩

theorem merger_emit (key value : String) (provided : List String)
    (h : ∀ arg ∈ provided, ¬ DefinesKeyAmended key arg) :
    addVercelMetadata key value provided = ["-m", key ++ "=" ++ value] := by
  unfold addVercelMetadata
  rw [if_neg]
  intro hany
  obtain ⟨arg, hmem, hmatch⟩ := List.any_eq_true.mp hany
  exact h arg hmem ((metadataKeyMatched_iff key arg).mp hmatch)

theorem merger_emit_absent (key value : String) (provided : List String)
    (h : ∀ arg ∈ provided, ¬ (key.toList ++ [Char.ofNat 61]).isPrefixOf arg.toList = true) :
    addVercelMetadata key value provided = ["-m", key ++ "=" ++ value] := by
  apply merger_emit
  intro arg hmem hdef
  apply h arg hmem
  obtain ⟨c, s, heq, _⟩ := hdef
  apply List.isPrefixOf_iff_prefix.mpr
  rw [heq]
  exact ⟨c :: s, by simp⟩

/-- C2: `addVercelMetadata key value provided` returns the empty sequence
when some provided token matches the key pattern, and otherwise returns
exactly the two-token flag `["-m", "key=value"]`; in particular, when no
provided token even starts with `key=`, the computed flag is emitted for
every value.  Amended from the claim: the regex `^key=.+` requires the
character following `key=` to exist and not be a line terminator (JS `.`
does not match line terminators), rather than "one or more characters" of
any kind. -/
theorem c2_merger_behaviour (key value : String) (provided : List String) :
    ((∃ arg ∈ provided, DefinesKeyAmended key arg) →
      addVercelMetadata key value provided = []) ∧
    ((∀ arg ∈ provided, ¬ DefinesKeyAmended key arg) →
      addVercelMetadata key value provided = ["-m", key ++ "=" ++ value]) ∧
    ((∀ arg ∈ provided, ¬ (key.toList ++ [Char.ofNat 61]).isPrefixOf arg.toList = true) →
      addVercelMetadata key value provided = ["-m", key ++ "=" ++ value]) :=
  ⟨merger_suppress key value provided,
   merger_emit key value provided,
   merger_emit_absent key value provided⟩

/-- C2, counterexample to the claim as stated: the token
`githubOrg=` followed by a line feed matches `K=<one or more characters>`
anchored at the start (the claim's condition), yet the merger still emits
the computed flag rather than the empty sequence, because the regex `.+`
cannot match a line terminator. -/
theorem c2_counterexample :
    DefinesKeyLiteral "githubOrg" ("githubOrg=" ++ "\n") ∧
    addVercelMetadata "githubOrg" "acme" ["githubOrg=" ++ "\n"] =
      ["-m", "githubOrg=acme"] ∧
    addVercelMetadata "githubOrg" "acme" ["githubOrg=" ++ "\n"] ≠ [] :=
  ⟨⟨"\n", by decide, by decide⟩, by decide, by decide⟩

/-- C2, witness: at a concrete key, value and provided vector with no
matching token, the theorem yields the computed flag. -/
theorem c2_witness :
    addVercelMetadata "githubCommitSha" "abc123" ["--prod"] =
      ["-m", "githubCommitSha=abc123"] := by
  refine (c2_merger_behaviour "githubCommitSha" "abc123" ["--prod"]).2.1 ?_
  intro arg hmem hdef
  have harg : arg = "--prod" := by simpa using hmem
  subst harg
  exact absurd ((metadataKeyMatched_iff _ _).mpr hdef) (by decide)

theorem vercelDeployArgs_structure (i : DeployInputs) :
    vercelDeployArgs i =
      providedOf i ++ ["-t", i.vercelToken] ++
      (wellKnownMetadata i).flatMap
        (fun kv => addVercelMetadata kv.1 kv.2 (providedOf i)) ++
      (if i.scope ≠ "" then ["--scope", i.scope] else []) := by
  unfold vercelDeployArgs wellKnownMetadata
  simp [List.append_assoc]

/-- C1 (amended): in the argument vector built by the deployment invoker,
the user-supplied tokens are kept verbatim in front, and for every
well-known metadata key the computed segment is empty exactly when some
provided token already defines that key — so the vector never carries
both a user-supplied definition of a key and the computed flag for it.
Amended from the claim: "defines K" means `K=` followed by at least one
character whose first character is not a line terminator (the regex
`^K=.+` of the merger), not "one or more characters" of any kind. -/
theorem c1_no_duplicate_metadata (i : DeployInputs) (kv : String × String)
    (hmem : kv ∈ wellKnownMetadata i) :
    (∃ tailArgs : List String, vercelDeployArgs i = providedOf i ++ tailArgs) ∧
    ((∃ arg ∈ providedOf i, DefinesKeyAmended kv.1 arg) →
      addVercelMetadata kv.1 kv.2 (providedOf i) = []) ∧
    ((∀ arg ∈ providedOf i, ¬ DefinesKeyAmended kv.1 arg) →
      addVercelMetadata kv.1 kv.2 (providedOf i) = ["-m", kv.1 ++ "=" ++ kv.2]) := by
  refine ⟨?_, merger_suppress kv.1 kv.2 (providedOf i),
    merger_emit kv.1 kv.2 (providedOf i)⟩
  exact ⟨["-t", i.vercelToken] ++
    (wellKnownMetadata i).flatMap
      (fun kv => addVercelMetadata kv.1 kv.2 (providedOf i)) ++
    (if i.scope ≠ "" then ["--scope", i.scope] else []),
    by rw [vercelDeployArgs_structure]; simp [List.append_assoc]⟩

/-- Concrete deployment inputs whose user-supplied argument string is the
single-quoted token `githubOrg=` followed by a line feed. -/
def c1Inputs : DeployInputs :=
  ⟨sqS ++ "githubOrg=" ++ "\n" ++ sqS, "tok", "sha", "act", "acme", "repo",
    "msg", "main", ""⟩

/-- C1, counterexample to the claim as stated: the provided token
`githubOrg=` followed by a line feed defines the key `githubOrg` in the
claim's sense (`K=` plus one or more characters), yet the built argument
vector keeps that token verbatim *and* contains the computed
`-m githubOrg=acme` pair — both at once, and the merger does not return
the empty sequence. -/
theorem c1_counterexample :
    ("githubOrg=" ++ "\n") ∈ providedOf c1Inputs ∧
    DefinesKeyLiteral "githubOrg" ("githubOrg=" ++ "\n") ∧
    ("githubOrg", "acme") ∈ wellKnownMetadata c1Inputs ∧
    vercelDeployArgs c1Inputs =
      ["githubOrg=" ++ "\n", "-t", "tok",
       "-m", "githubCommitSha=sha", "-m", "githubCommitAuthorName=act",
       "-m", "githubCommitAuthorLogin=act", "-m", "githubDeployment=1",
       "-m", "githubOrg=acme", "-m", "githubRepo=repo",
       "-m", "githubCommitOrg=acme", "-m", "githubCommitRepo=repo",
       "-m", "githubCommitMessage=" ++ dqS ++ "msg" ++ dqS,
       "-m", "githubCommitRef=main"] ∧
    addVercelMetadata "githubOrg" "acme" (providedOf c1Inputs) ≠ [] :=
  ⟨by decide, ⟨"\n", by decide, by decide⟩, by decide, by decide, by decide⟩

/-- C1, witness: at concrete inputs with no user-supplied arguments, the
provided tokens sit in front of the vector and the computed flag for the
commit SHA is emitted. -/
theorem c1_witness :
    addVercelMetadata "githubCommitSha" "sha"
      (providedOf ⟨"", "tok", "sha", "act", "acme", "repo", "msg", "main", ""⟩) =
      ["-m", "githubCommitSha=sha"] := by
  refine (c1_no_duplicate_metadata
    ⟨"", "tok", "sha", "act", "acme", "repo", "msg", "main", ""⟩
    ("githubCommitSha", "sha") (by decide)).2.2 ?_
  intro arg hmemarg _
  rw [show providedOf ⟨"", "tok", "sha", "act", "acme", "repo", "msg", "main", ""⟩
    = [] from by decide] at hmemarg
  simp at hmemarg

/-- C3 (amended): the deployment invoker builds exactly the vector the
specification describes — provided tokens, auth pair, the merged metadata
entries for the ten keys in the fixed order, optional scope pair — with
the ref wording amended: the code removes the *first occurrence* of
`refs/heads/` from the ref (JS `String.replace` with a string pattern),
which agrees with stripping a leading prefix whenever the occurrence is
leading, but not in general. -/
theorem c3_deploy_vector (i : DeployInputs) :
    vercelDeployArgs i = specDeployArgsAmended i := by
  rw [vercelDeployArgs_structure]
  unfold specDeployArgsAmended wellKnownMetadata
  simp [List.append_assoc]

/-- C3, counterexample to the claim as stated: for the ref
`a/refs/heads/b`, whose `refs/heads/` occurrence is not leading, the
built vector differs from the specification's vector (the code turns the
ref into `a/b`; stripping a leading prefix would leave it unchanged). -/
theorem c3_counterexample :
    vercelDeployArgs ⟨"", "tok", "s", "a", "o", "r", "m", "a/refs/heads/b", ""⟩ ≠
      specDeployArgs ⟨"", "tok", "s", "a", "o", "r", "m", "a/refs/heads/b", ""⟩ ∧
    replaceFirst "a/refs/heads/b" "refs/heads/" = "a/b" ∧
    stripLeading "a/refs/heads/b" "refs/heads/" = "a/refs/heads/b" :=
  ⟨by decide, by decide, by decide⟩

/-- C4: the tokenizer scans left to right per the specification's rules
(quoted runs become one token with the quotes stripped and interior
characters of the other quote kind preserved; any other maximal
non-whitespace run is one token; an unmatched quote is a literal
character of such a run), the empty input yields the empty sequence, and
the documented example tokenizes to the four expected tokens. -/
theorem c4_tokenizer (s : String) :
    SpecScan s.toList (parseArgs s) ∧
    parseArgs "" = [] ∧
    parseArgs ("--env foo=bar " ++ dqS ++ "foo=bar baz" ++ dqS ++ " " ++
        sqS ++ "foo=" ++ dqS ++ "bar baz" ++ dqS ++ sqS) =
      ["--env", "foo=bar", "foo=bar baz", "foo=" ++ dqS ++ "bar baz" ++ dqS] ∧
    parseArgs (sqS ++ "abc def") = [sqS ++ "abc", "def"] :=
  ⟨scanArgs_specScan s.toList, by decide, by decide, by decide⟩

theorem scanArgs_empty_squote_pair (rest : List Char) :
    scanArgs (squote :: squote :: rest) = "" :: scanArgs rest := by
  have hc := scanArgsFuel_congr (rest.length + 1)
    (Nat.le_succ rest.length) (Nat.le_refl rest.length)
  have hws : wsChar squote = false := by decide
  simp [scanArgs, scanArgsFuel, splitQuoted, hc, hws]

theorem scanArgs_empty_dquote_pair (rest : List Char) :
    scanArgs (dquote :: dquote :: rest) = "" :: scanArgs rest := by
  have hc := scanArgsFuel_congr (rest.length + 1)
    (Nat.le_succ rest.length) (Nat.le_refl rest.length)
  have hws : wsChar (Char.ofNat 34) = false := by decide
  simp [scanArgs, scanArgsFuel, splitQuoted, squote, dquote, hc, hws]

/-- C10: an empty quoted pair is tokenized as the empty-string token, at
whatever position the scan meets it (shown in general for both quote
kinds at the head of the remaining input, and concretely in the middle of
an input), so the argument vector handed to the deployment subprocess can
contain empty-string arguments. -/
theorem c10_empty_token (rest : List Char) :
    scanArgs (squote :: squote :: rest) = "" :: scanArgs rest ∧
    scanArgs (dquote :: dquote :: rest) = "" :: scanArgs rest ∧
    parseArgs (sqS ++ sqS) = [""] ∧
    parseArgs ("a " ++ sqS ++ sqS ++ " b") = ["a", "", "b"] ∧
    parseArgs ("a " ++ dqS ++ dqS ++ " b") = ["a", "", "b"] ∧
    "" ∈ vercelDeployArgs ⟨sqS ++ sqS, "tok", "s", "a", "o", "r", "m", "main", ""⟩ :=
  ⟨scanArgs_empty_squote_pair rest, scanArgs_empty_dquote_pair rest,
   by decide, by decide, by decide, by decide⟩

theorem foldl_overwrite_eq_last : ∀ (l : List String) (acc : String),
    l.foldl (fun a c => if strHasPre inspectMarker c then replaceFirst c "Inspect: " else a) acc =
      (match l.reverse.find? (fun c => strHasPre inspectMarker c) with
       | some c => replaceFirst c "Inspect: "
       | none => acc) := by
  intro l
  induction l with
  | nil => intro acc; rfl
  | cons c t ih =>
    intro acc
    rw [List.foldl_cons, ih]
    have hrev : (c :: t).reverse = t.reverse ++ [c] := by simp
    rw [hrev, List.find?_append]
    cases hfind : t.reverse.find? (fun c => strHasPre inspectMarker c) with
    | some d => simp [Option.or]
    | none =>
      by_cases hp : strHasPre inspectMarker c
      · simp [Option.or, List.find?, hp]
      · simp [Option.or, List.find?, hp]

theorem inspectorUrlOf_eq_last (chunks : List String) :
    inspectorUrlOf chunks = lastInspectUrl chunks := by
  unfold inspectorUrlOf lastInspectUrl
  rw [foldl_overwrite_eq_last]

/-- C6 (amended): the inspect URL captured by the deploy step equals the
*last* standard-error chunk starting with the marker
`Inspect: https://vercel.com`, with the leading `Inspect: ` removed, and
is the empty string when no chunk matches; the deployment URL is the
concatenation of the stdout chunks.  Amended from the claim: the stderr
listener overwrites the variable on every matching chunk, so a later
match wins, not the first. -/
theorem c6_inspect_url (stdoutChunks stderrChunks : List String) :
    (deployCapture stdoutChunks stderrChunks).inspectorUrl = lastInspectUrl stderrChunks ∧
    (stderrChunks.all (fun c => !(strHasPre inspectMarker c)) = true →
      (deployCapture stdoutChunks stderrChunks).inspectorUrl = "") ∧
    (deployCapture stdoutChunks stderrChunks).deploymentUrl = String.join stdoutChunks := by
  refine ⟨inspectorUrlOf_eq_last stderrChunks, ?_, rfl⟩
  intro hall
  have hfind : stderrChunks.reverse.find? (fun c => strHasPre inspectMarker c) = none := by
    apply List.find?_eq_none.mpr
    intro x hx
    have hmem : x ∈ stderrChunks := List.mem_reverse.mp hx
    have := List.all_eq_true.mp hall x hmem
    simp at this
    simp [this]
  show inspectorUrlOf stderrChunks = ""
  rw [inspectorUrlOf_eq_last]
  unfold lastInspectUrl
  rw [hfind]

/-- C6, counterexample to the claim as stated: with two marker chunks on
standard error, the captured inspect URL is the second one, not the
first. -/
theorem c6_counterexample :
    (deployCapture [] ["Inspect: https://vercel.com/x/a",
        "Inspect: https://vercel.com/x/b"]).inspectorUrl =
      "https://vercel.com/x/b" ∧
    firstInspectUrl ["Inspect: https://vercel.com/x/a",
        "Inspect: https://vercel.com/x/b"] = "https://vercel.com/x/a" ∧
    ("https://vercel.com/x/b" : String) ≠ "https://vercel.com/x/a" :=
  ⟨by decide, by decide, by decide⟩

/-- C6, witness: a stderr stream without any marker chunk yields the
empty inspect URL. -/
theorem c6_witness :
    (deployCapture [] ["Error: build failed"]).inspectorUrl = "" :=
  (c6_inspect_url [] ["Error: build failed"]).2.1 (by decide)

/-- C9 (amended): the `preview-url` step output is set to the deployment
URL captured by the deployment invoker when that URL is non-empty; when
the URL is empty, no output is set at all (the code only logs a warning),
so the consumer observes the platform default rather than an explicitly
written empty string. -/
theorem c9_preview_url_output (stdoutChunks stderrChunks : List String) :
    ((deployCapture stdoutChunks stderrChunks).deploymentUrl ≠ "" →
      runPreviewUrlOutputs stdoutChunks stderrChunks =
        [("preview-url", (deployCapture stdoutChunks stderrChunks).deploymentUrl)]) ∧
    ((deployCapture stdoutChunks stderrChunks).deploymentUrl = "" →
      runPreviewUrlOutputs stdoutChunks stderrChunks = []) := by
  unfold runPreviewUrlOutputs previewUrlOutputs
  constructor <;> intro h <;> simp [h]

/-- C9, counterexample to the claim as stated: when the deployment URL is
unavailable (empty), the run sets no `preview-url` output at all, whereas
the claim asserts the output is set to the empty string. -/
theorem c9_counterexample :
    runPreviewUrlOutputs [] [] = [] ∧
    (deployCapture [] []).deploymentUrl = "" ∧
    ([] : List (String × String)) ≠ [("preview-url", "")] :=
  ⟨by decide, by decide, by decide⟩

/-- C9, witness: a non-empty captured URL is set as the output. -/
theorem c9_witness :
    runPreviewUrlOutputs ["https://x.vercel.app"] [] =
      [("preview-url", (deployCapture ["https://x.vercel.app"] []).deploymentUrl)] :=
  (c9_preview_url_output ["https://x.vercel.app"] []).1 (by decide)

/-- C8 (amended): a failure of *listing* comments is caught and treated
as "no previous comment found" (the default empty response), and the
reporting step cannot fail the run as long as the create/update calls
succeed; but a rejection of the *create or update* call itself is not
caught and fails the overall run.  Amended from the claim: only the
listing failures are absorbed; creation failures propagate. -/
theorem c8_comment_api_errors (env : ReportEnv) (deploymentName e : String) :
    (env.eventName = "push" → env.listCommitComments = .error e →
      findCommentsForEvent env = []) ∧
    (env.eventName ≠ "push" → isPullRequestType env.eventName = true →
      env.listIssueComments = .error e → findCommentsForEvent env = []) ∧
    (env.createCommitComment = .ok () → env.updateCommitComment = .ok () →
      env.createIssueComment = .ok () → env.updateIssueComment = .ok () →
      runFailsFromReporting env deploymentName = false) := by
  refine ⟨?_, ?_, ?_⟩
  · intro h1 h2
    cases hoct : env.hasOctokit <;> simp [findCommentsForEvent, h1, h2, hoct]
  · intro h1 h2 h3
    cases hoct : env.hasOctokit <;>
      simp [findCommentsForEvent, h1, h2, h3, hoct]
  · intro h1 h2 h3 h4
    unfold runFailsFromReporting reportPhase createCommentOnPullRequest
      createCommentOnCommit
    split_ifs <;>
      first
        | (cases hf : findPreviousComment env (commentMarkerText deploymentName) <;>
            simp [hf, h1, h2, h3, h4, isErrResult])
        | simp [isErrResult]

/-- A reporting environment where listing succeeds with no previous
comment and creating the commit comment is rejected by the platform. -/
def c8Env : ReportEnv :=
  ⟨true, "push", 0, .ok [], .ok [], .error "boom", .ok (), .ok (), .ok ()⟩

/-- C8, counterexample to the claim as stated: a failing
create-commit-comment API call is not caught — it escapes the reporting
step and fails the overall run. -/
theorem c8_counterexample :
    reportPhase c8Env "site" = .error "boom" ∧
    runFailsFromReporting c8Env "site" = true :=
  ⟨rfl, by decide⟩

/-- C8, witness: with all create/update calls succeeding, the reporting
step never fails the run (even though this environment's listing calls
would be allowed to fail). -/
theorem c8_witness :
    runFailsFromReporting
      ⟨true, "push", 0, .error "down", .error "down", .ok (), .ok (), .ok (), .ok ()⟩
      "site" = false :=
  (c8_comment_api_errors
    ⟨true, "push", 0, .error "down", .error "down", .ok (), .ok (), .ok (), .ok ()⟩
    "site" "down").2.2 rfl rfl rfl rfl

/-- C5 (amended): for a pull-request event whose base repository owner
differs from the current repository owner, the orchestrator never
invokes the deployment subprocess (no opt-in detection exists in the
code, so this is unconditional); the `src/unnamed/part_001` run exits
successfully but posts no comment at all, while the fork-comment variant
(`src/unnamed/part_002`) posts the explanatory opt-in comment and exits
successfully provided the comment create/update API call succeeds.
Amended from the claim: one cited variant never posts the comment, and
in the other a rejected comment write is uncaught and fails the run. -/
theorem c5_fork_rejection (env : OrchestratorEnv)
    (hpr : isPullRequestType env.eventName = true)
    (hfork : env.repoOwner ≠ env.baseOwner) :
    ((runPart001 env).deployInvoked = false ∧ (runPart001 env).failed = false ∧
      (runPart001 env).posted = []) ∧
    (env.issueNumber ≠ 0 → env.createIssueComment = .ok () →
      env.updateIssueComment = .ok () →
      (runPart002 env).deployInvoked = false ∧ (runPart002 env).failed = false ∧
      (runPart002 env).posted = [restBodyComment (forkCommentBody env.actor)]) := by
  constructor
  · unfold runPart001
    rw [if_pos ⟨hpr, hfork⟩]
    exact ⟨rfl, rfl, rfl⟩
  · intro hiss hcre hupd
    unfold runPart002
    rw [if_pos ⟨hpr, hfork⟩]
    unfold restCreateComment
    rw [if_pos hiss]
    cases hf : findPreviousComment (toReportEnv env) restMarker <;>
      simp [hf, hcre, hupd, Except.map]

/-- A concrete forked-pull-request environment with a working platform
API. -/
def c5Env : OrchestratorEnv :=
  ⟨"pull_request", "me", "other", "alice", "headsha", "site", 7, 5,
    .ok (), .ok "msg", none, "", .ok ⟨"https://x.vercel.app", ""⟩, .ok none,
    .ok [], .ok [], .ok (), .ok (), .ok (), .ok ()⟩

/-- C5, witness: at the concrete forked-PR environment, no deployment is
invoked, the run succeeds, and the explanatory comment is posted. -/
theorem c5_witness :
    (runPart001 c5Env).deployInvoked = false ∧ (runPart001 c5Env).failed = false ∧
    (runPart002 c5Env).failed = false ∧
    (runPart002 c5Env).posted = [restBodyComment (forkCommentBody "alice")] := by
  have h := c5_fork_rejection c5Env (by decide) (by decide)
  have h2 := h.2 (by decide) rfl rfl
  exact ⟨h.1.1, h.1.2.1, h2.2.1, h2.2.2⟩

theorem searchGroupStart_some {t : List Char} :
    ∀ {n k : Nat}, searchGroupStart t n = some k →
      1 ≤ k ∧ k ≤ n ∧ goodGroupStart t k = true := by
  intro n
  induction n with
  | zero => intro k h; simp [searchGroupStart] at h
  | succ n ih =>
    intro k h
    unfold searchGroupStart at h
    by_cases hg : goodGroupStart t (n + 1) = true
    · rw [if_pos hg] at h
      obtain rfl := Option.some.inj h
      exact ⟨by omega, Nat.le_refl _, hg⟩
    · rw [if_neg hg] at h
      obtain ⟨h1, h2, h3⟩ := ih h
      exact ⟨h1, by omega, h3⟩

theorem matchTail_sound {t g : List Char} (h : matchTail t = some g) :
    ∃ w2 post : List Char,
      t = w2 ++ g ++ post ∧ w2 ≠ [] ∧ (∀ c ∈ w2, wsChar c = true) ∧
      g ≠ [] ∧ (∀ c ∈ g, ltChar c = false) ∧
      (post = [] ∨ ∃ c : Char, ∃ p2 : List Char, post = c :: p2 ∧ ltChar c = true) := by
  unfold matchTail at h
  cases hs : searchGroupStart t (t.takeWhile wsChar).length with
  | none => rw [hs] at h; simp at h
  | some k =>
    rw [hs] at h
    obtain rfl := Option.some.inj h
    obtain ⟨hk1, hk2, hgood⟩ := searchGroupStart_some hs
    obtain ⟨c, tl, hd, hcnlt⟩ :
        ∃ c : Char, ∃ tl : List Char, t.drop k = c :: tl ∧ ltChar c = false := by
      unfold goodGroupStart at hgood
      cases hdk : t.drop k with
      | nil => rw [hdk] at hgood; simp at hgood
      | cons c tl =>
        rw [hdk] at hgood
        exact ⟨c, tl, rfl, by simpa using hgood⟩
    refine ⟨t.take k, (t.drop k).dropWhile (fun c => !ltChar c), ?_, ?_, ?_, ?_, ?_, ?_⟩
    · rw [List.append_assoc, List.takeWhile_append_dropWhile, List.take_append_drop]
    · rw [Ne, List.take_eq_nil_iff]
      rintro (h0 | h0)
      · omega
      · rw [h0] at hd; simp at hd
    · intro x hx
      have htk : t.take k = (t.takeWhile wsChar).take k := by
        conv in t.take k => rw [← List.takeWhile_append_dropWhile wsChar t]
        rw [List.take_append_eq_append_take]
        rw [show k - (t.takeWhile wsChar).length = 0 from by omega]
        simp
      rw [htk] at hx
      exact List.mem_takeWhile_imp (List.mem_of_mem_take hx)
    · rw [hd, List.takeWhile_cons_of_pos (by simp [hcnlt])]
      simp
    · intro x hx
      have := List.mem_takeWhile_imp hx
      simpa using this
    · cases hpost : (t.drop k).dropWhile (fun c => !ltChar c) with
      | nil => exact Or.inl rfl
      | cons a p2 =>
        have := dropWhile_head_false hpost
        exact Or.inr ⟨a, p2, rfl, by simpa using this⟩

theorem attemptName_sound {cs g : List Char} (h : attemptName cs = some g) :
    ∃ w1 t : List Char,
      cs = w1 ++ nameChars ++ t ∧ w1 ≠ [] ∧ (∀ c ∈ w1, wsChar c = true) ∧
      matchTail t = some g := by
  unfold attemptName at h
  by_cases hemp : (cs.takeWhile wsChar).isEmpty
  · rw [if_pos hemp] at h; simp at h
  · rw [if_neg hemp] at h
    by_cases hpre : nameChars.isPrefixOf (cs.dropWhile wsChar)
    · rw [if_pos hpre] at h
      obtain ⟨t, ht⟩ := List.isPrefixOf_iff_prefix.mp hpre
      have hdrop : (cs.dropWhile wsChar).drop nameChars.length = t := by
        rw [← ht, List.drop_left]
      rw [hdrop] at h
      refine ⟨cs.takeWhile wsChar, t, ?_, ?_, ?_, h⟩
      · rw [List.append_assoc, ht, List.takeWhile_append_dropWhile]
      · intro habs
        rw [habs] at hemp
        simp at hemp
      · intro x hx
        exact List.mem_takeWhile_imp hx
    · rw [if_neg hpre] at h
      simp at h

theorem nameMatch_of_attempt {pre rest2 g : List Char}
    (h : attemptName rest2 = some g)
    (hpre : pre = [] ∨ ∃ c : Char, pre.getLast? = some c ∧ ltChar c = true) :
    NameMatch (pre ++ rest2) g := by
  obtain ⟨w1, t, hcs, hw1ne, hw1, hmt⟩ := attemptName_sound h
  obtain ⟨w2, post, ht, hw2ne, hw2, hgne, hg, hpost⟩ := matchTail_sound hmt
  refine ⟨pre, w1, w2, post, ?_, hpre, hw1ne, hw1, hw2ne, hw2, hgne, hg, hpost⟩
  rw [hcs, ht]
  simp [List.append_assoc]

theorem scanName_sound : ∀ (cs : List Char) (atStart : Bool) (pre g : List Char),
    scanName atStart cs = some g →
    (atStart = true → (pre = [] ∨ ∃ c : Char, pre.getLast? = some c ∧ ltChar c = true)) →
    NameMatch (pre ++ cs) g := by
  intro cs
  induction cs with
  | nil => intro atStart pre g h _; simp [scanName] at h
  | cons c rest ih =>
    intro atStart pre g h hb
    cases hatt : (if atStart then attemptName (c :: rest) else none) with
    | some g2 =>
      have hg2 : g2 = g := by
        unfold scanName at h
        rw [hatt] at h
        exact Option.some.inj h
      subst hg2
      cases atStart with
      | false => simp at hatt
      | true =>
        rw [if_pos rfl] at hatt
        exact nameMatch_of_attempt hatt (hb rfl)
    | none =>
      have hrec : scanName (ltChar c) rest = some g := by
        unfold scanName at h
        rw [hatt] at h
        exact h
      have := ih (ltChar c) (pre ++ [c]) g hrec (by
        intro hlt
        exact Or.inr ⟨c, List.getLast?_concat pre, hlt⟩)
      rw [List.append_assoc] at this
      simpa using this

theorem takeWhile_append_all {p : Char → Bool} :
    ∀ {l1 l2 : List Char}, (∀ c ∈ l1, p c = true) →
      (l1 ++ l2).takeWhile p = l1 ++ l2.takeWhile p := by
  intro l1
  induction l1 with
  | nil => intro l2 _; simp
  | cons a l ih =>
    intro l2 h
    rw [List.cons_append,
      List.takeWhile_cons_of_pos (h a (List.mem_cons_self a l)), List.cons_append,
      ih (fun c hc => h c (List.mem_cons_of_mem a hc))]

theorem dropWhile_append_all {p : Char → Bool} :
    ∀ {l1 l2 : List Char}, (∀ c ∈ l1, p c = true) →
      (l1 ++ l2).dropWhile p = l2.dropWhile p := by
  intro l1
  induction l1 with
  | nil => intro l2 _; simp
  | cons a l ih =>
    intro l2 h
    rw [List.cons_append,
      List.dropWhile_cons_of_pos (h a (List.mem_cons_self a l)),
      ih (fun c hc => h c (List.mem_cons_of_mem a hc))]

theorem searchGroupStart_isSome {t : List Char} :
    ∀ {n : Nat}, (∃ k : Nat, 1 ≤ k ∧ k ≤ n ∧ goodGroupStart t k = true) →
      (searchGroupStart t n).isSome = true := by
  intro n
  induction n with
  | zero =>
    intro ⟨k, h1, h2, _⟩
    omega
  | succ n ih =>
    intro ⟨k, h1, h2, h3⟩
    unfold searchGroupStart
    by_cases hg : goodGroupStart t (n + 1) = true
    · rw [if_pos hg]; rfl
    · rw [if_neg hg]
      refine ih ⟨k, h1, ?_, h3⟩
      rcases Nat.lt_or_ge k (n + 1) with hlt | hge
      · omega
      · exfalso
        have : k = n + 1 := by omega
        rw [this] at h3
        exact hg h3

theorem matchTail_isSome {w2 gt : List Char} {gc : Char}
    (hw2ne : w2 ≠ []) (hw2 : ∀ c ∈ w2, wsChar c = true)
    (hgc : ltChar gc = false) :
    (matchTail (w2 ++ gc :: gt)).isSome = true := by
  unfold matchTail
  have hsome : (searchGroupStart (w2 ++ gc :: gt)
      ((w2 ++ gc :: gt).takeWhile wsChar).length).isSome = true := by
    apply searchGroupStart_isSome
    refine ⟨w2.length, ?_, ?_, ?_⟩
    · cases w2 with
      | nil => exact absurd rfl hw2ne
      | cons a l => simp
    · rw [takeWhile_append_all hw2]
      simp
    · unfold goodGroupStart
      rw [List.drop_left]
      simpa using hgc
  cases hs : searchGroupStart (w2 ++ gc :: gt)
      ((w2 ++ gc :: gt).takeWhile wsChar).length with
  | none => rw [hs] at hsome; simp at hsome
  | some k => rfl

theorem attemptName_isSome {w1 t : List Char}
    (hw1ne : w1 ≠ []) (hw1 : ∀ c ∈ w1, wsChar c = true)
    (hmt : (matchTail t).isSome = true) :
    (attemptName (w1 ++ nameChars ++ t)).isSome = true := by
  have hnws : wsChar 'n' = false := by decide
  have hname : nameChars ++ t = 'n' :: (['a', 'm', 'e'] ++ t) := by
    simp [nameChars]
  have htake : (w1 ++ nameChars ++ t).takeWhile wsChar = w1 := by
    rw [List.append_assoc, takeWhile_append_all hw1, hname,
      List.takeWhile_cons_of_neg (by simp [hnws])]
    simp
  have hdrop : (w1 ++ nameChars ++ t).dropWhile wsChar = nameChars ++ t := by
    rw [List.append_assoc, dropWhile_append_all hw1, hname,
      List.dropWhile_cons_of_neg (by simp [hnws])]
  unfold attemptName
  rw [htake, hdrop]
  rw [if_neg (by simp [List.isEmpty_iff, hw1ne]),
    if_pos (List.isPrefixOf_iff_prefix.mpr ⟨t, rfl⟩), List.drop_left]
  exact hmt

theorem scanName_none_attempt :
    ∀ (pre : List Char) (atStart : Bool) (rest2 : List Char),
      scanName atStart (pre ++ rest2) = none →
      ((pre = [] ∧ atStart = true) ∨
        (∃ c : Char, pre.getLast? = some c ∧ ltChar c = true)) →
      attemptName rest2 = none := by
  intro pre
  induction pre with
  | nil =>
    intro atStart rest2 h hcond
    have hstart : atStart = true := by
      rcases hcond with ⟨_, h2⟩ | ⟨c, hlast, _⟩
      · exact h2
      · simp at hlast
    subst hstart
    cases rest2 with
    | nil => rfl
    | cons c t =>
      rw [List.nil_append] at h
      cases hatt : attemptName (c :: t) with
      | none => rfl
      | some g =>
        unfold scanName at h
        rw [if_pos rfl, hatt] at h
        simp at h
  | cons p pre2 ih =>
    intro atStart rest2 h hcond
    rw [List.cons_append] at h
    have hrec : scanName (ltChar p) (pre2 ++ rest2) = none := by
      unfold scanName at h
      cases hatt : (if atStart then attemptName (p :: (pre2 ++ rest2)) else none) with
      | some g => rw [hatt] at h; simp at h
      | none => rw [hatt] at h; exact h
    refine ih (ltChar p) rest2 hrec ?_
    rcases hcond with ⟨habs, _⟩ | ⟨c, hlast, hlt⟩
    · simp at habs
    · cases pre2 with
      | nil =>
        have hpc : p = c := by simpa using hlast
        subst hpc
        exact Or.inl ⟨rfl, hlt⟩
      | cons q pre3 =>
        rw [List.getLast?_cons_cons] at hlast
        exact Or.inr ⟨c, hlast, hlt⟩

theorem vercelInspectName_none {s : String} (h : vercelInspectName s = none) :
    ∀ g : List Char, ¬ NameMatch s.toList g := by
  intro g hm
  obtain ⟨pre, w1, w2, post, heq, hpre, hw1ne, hw1, hw2ne, hw2, hgne, hg, _⟩ := hm
  have hscan : scanName true s.toList = none := by
    unfold vercelInspectName at h
    cases hsc : scanName true s.toList with
    | none => rfl
    | some g2 => rw [hsc] at h; simp at h
  have heq2 : s.toList = pre ++ (w1 ++ nameChars ++ (w2 ++ g ++ post)) := by
    rw [heq]; simp [List.append_assoc]
  rw [heq2] at hscan
  have hattnone := scanName_none_attempt pre true _ hscan (by
    rcases hpre with h1 | h1
    · exact Or.inl ⟨h1, rfl⟩
    · exact Or.inr h1)
  obtain ⟨gc, gt, rfl⟩ : ∃ c : Char, ∃ t2 : List Char, g = c :: t2 := by
    cases g with
    | nil => exact absurd rfl hgne
    | cons a l => exact ⟨a, l, rfl⟩
  have hgc : ltChar gc = false := hg gc (List.mem_cons_self gc gt)
  have hteq : w2 ++ (gc :: gt) ++ post = w2 ++ gc :: (gt ++ post) := by
    simp
  rw [hteq] at hattnone
  have happ := attemptName_isSome hw1ne hw1
    (@matchTail_isSome w2 (gt ++ post) gc hw2ne hw2 hgc)
  rw [hattnone] at happ
  simp at happ

/-- C7 (amended): the inspection parser returns the capture group of the
*leftmost multiline match* of `^\s+name\s+(.+)$` over the whole captured
stderr text — whose leading `\s+` may span line breaks from preceding
lines, since JS `\s` includes line terminators — and returns `null`
exactly when no such match exists anywhere; on `"  name   my-project\n"`
it yields `"my-project"`, and on text with no matching row it is absent.
Amended from the claim: the match is not confined to a single line. -/
theorem c7_inspect_name :
    (∀ s g : String, vercelInspectName s = some g → NameMatch s.toList g.toList) ∧
    (∀ s : String, vercelInspectName s = none → ∀ g : List Char, ¬ NameMatch s.toList g) ∧
    vercelInspectName "  name   my-project\n" = some "my-project" ∧
    vercelInspectName "  id   dpl_123\n  status  READY\n" = none := by
  refine ⟨?_, fun s h => vercelInspectName_none h, by decide, by decide⟩
  intro s g h
  unfold vercelInspectName at h
  cases hsc : scanName true s.toList with
  | none => rw [hsc] at h; simp at h
  | some gl =>
    rw [hsc] at h
    have hgl : g = String.mk gl := by
      simpa using h.symm
    subst hgl
    have := scanName_sound s.toList true [] gl hsc (fun _ => Or.inl rfl)
    simpa using this

/-- C7, counterexample to the claim as stated: in the text consisting of
a whitespace line followed by the line `name x`, no individual line
matches `^\s+name\s+(.+)$`, yet the code finds a match (the `\s+` crosses
the line break) and returns `x` instead of absent. -/
theorem c7_counterexample :
    vercelInspectName " \nname x" = some "x" ∧
    extractNameByLines " \nname x" = none ∧
    (some "x" ≠ (none : Option String)) :=
  ⟨by decide, by decide, by decide⟩

/-- C7, witness: the proved theorem applied to a concrete stderr text
yields a declarative multiline match for the extracted name. -/
theorem c7_witness :
    NameMatch ("  name  demo\n".toList) ("demo".toList) :=
  c7_inspect_name.1 "  name  demo\n" "demo" (by decide)

/-- The forked-pull-request environment of `c5Env`, except that the
platform rejects the comment-creation call (and no previous comment
exists, so the create path is taken). -/
def c5FailEnv : OrchestratorEnv :=
  ⟨"pull_request", "me", "other", "alice", "headsha", "site", 7, 5,
    .ok (), .ok "msg", none, "", .ok ⟨"https://x.vercel.app", ""⟩, .ok none,
    .ok [], .ok [], .ok (), .ok (), .error "denied", .ok ()⟩

/-- C5, counterexample to the claim as stated: on a forked pull-request
event (the claim's hypotheses hold concretely, and no opt-in detection
exists in the code), the `part_001` run posts no explanatory comment at
all, and the `part_002` run, when the platform rejects the uncaught
comment-creation call, posts nothing and exits as a failure rather than
successfully. -/
theorem c5_counterexample :
    isPullRequestType "pull_request" = true ∧
    ("me" : String) ≠ "other" ∧
    (runPart001 c5Env).posted = [] ∧
    (runPart002 c5FailEnv).failed = true ∧
    (runPart002 c5FailEnv).posted = [] :=
  ⟨by decide, by decide, by decide, by decide, by decide⟩
